import Mathlib

/-!
Verification of the hew2-customize core against its specification.

The development shallowly embeds, from the TypeScript sources:
 * the undo/redo command stack of `src/app/store.ts` (`useStore`:
   `pushCommand`, `undo`, `redo`),
 * the island segmentation of `src/app/islWorker.ts` (`separateIslands`
   and the worker `onmessage` handler),
 * the CSG worker message handler of `src/app/CSGWorker.ts` and the
   dispatcher `postCsgWorker.handleMessage` of the page component.

Side effects (calls to a command's `undo`/`redo`/`dispose` closures,
`postMessage` calls) are made observable as explicit event traces.
TypeScript `Float32Array` contents are modelled as rational numbers:
none of the verified claims depends on floating-point rounding, only on
the structure of the computation, and `Math.round` is modelled exactly
by `⌊x + 1/2⌋`.
-/

namespace Hew2

/-! ## Command stack (`src/app/store.ts`)

`Command` in the source is `{ undo: () => void; redo: () => void;
dispose?: () => void }`.  The store state holds `undoStack` and
`redoStack`, both ordered oldest-first (new entries are appended with
`[...stack, cmd]`).  We keep the command type abstract (`α`) and record
each closure invocation as an event. -/

/-- One observable closure invocation performed by a store transition:
`dispose c` is `c.dispose?.()` in `pushCommand`, `undoCall c` is
`cmd.undo()` in `undo`, `redoCall c` is `cmd.redo()` in `redo`. -/
inductive CmdEvent (α : Type u) where
  | dispose (c : α)
  | undoCall (c : α)
  | redoCall (c : α)
  deriving DecidableEq, Repr

/-- The store slice managed by `useStore`: `undoStack` and `redoStack`,
oldest entry first (the JS code appends with `[...stack, cmd]`). -/
structure StoreState (α : Type u) where
  undoStack : List α
  redoStack : List α
  deriving DecidableEq, Repr

/-- The initial store state: `undoStack: [], redoStack: []`. -/
def StoreState.init (α : Type u) : StoreState α := ⟨[], []⟩

/-- `pushCommand(cmd)`: calls `c.dispose?.()` on each entry of
`redoStack` in array order (index 0 first, i.e. oldest first), then sets
`undoStack` to `[...undoStack, cmd]` and `redoStack` to `[]`.  Returns
the new state together with the trace of closure invocations. -/
def pushCommand (s : StoreState α) (cmd : α) : StoreState α × List (CmdEvent α) :=
  (⟨s.undoStack ++ [cmd], []⟩, s.redoStack.map CmdEvent.dispose)

/-- `undo()`: if `undoStack.length === 0` return; otherwise take
`cmd = undoStack[undoStack.length - 1]`, call `cmd.undo()`, set
`undoStack` to `undoStack.slice(0, -1)` and `redoStack` to
`[...redoStack, cmd]`. -/
def undo (s : StoreState α) : StoreState α × List (CmdEvent α) :=
  match s.undoStack.getLast? with
  | none => (s, [])
  | some cmd => (⟨s.undoStack.dropLast, s.redoStack ++ [cmd]⟩, [CmdEvent.undoCall cmd])

/-- `redo()`: if `redoStack.length === 0` return; otherwise take
`cmd = redoStack[redoStack.length - 1]`, call `cmd.redo()`, set
`redoStack` to `redoStack.slice(0, -1)` and `undoStack` to
`[...undoStack, cmd]`. -/
def redo (s : StoreState α) : StoreState α × List (CmdEvent α) :=
  match s.redoStack.getLast? with
  | none => (s, [])
  | some cmd => (⟨s.undoStack ++ [cmd], s.redoStack.dropLast⟩, [CmdEvent.redoCall cmd])

end Hew2

namespace Hew2

/-- A call into the store API, used to reason about arbitrary call
sequences. -/
inductive StoreOp (α : Type u) where
  | push (c : α)
  | undoOp
  | redoOp

/-- Accounting state for a run: the store state, the number of commands
pushed so far, and the number of commands released (evicted from
`redoStack` by a push) so far. -/
structure RunState (α : Type u) where
  store : StoreState α
  pushed : Nat
  released : Nat

/-- Run a single store call, updating the push/release counters. -/
def stepOp (r : RunState α) : StoreOp α → RunState α
  | .push c => ⟨(pushCommand r.store c).1, r.pushed + 1,
      r.released + r.store.redoStack.length⟩
  | .undoOp => ⟨(undo r.store).1, r.pushed, r.released⟩
  | .redoOp => ⟨(redo r.store).1, r.pushed, r.released⟩

/-- Run a sequence of store calls from empty stacks. -/
def runOps (ops : List (StoreOp α)) : RunState α :=
  ops.foldl stepOp ⟨StoreState.init α, 0, 0⟩

end Hew2

namespace Hew2

/-! ## Scene commands (`handleFinDrawing` in the page component)

The command pushed after a successful subtraction+segmentation cycle
captures `convexMesh`, `nextMeshes` and `originalState` and mutates two
scene groups (`convexGroupRef.current` and `concaveParent`).  We model a
command as a pair of functions on an abstract scene state `σ`, plus an
optional dispose function, and the concrete fin-drawing command on the
node sets of the two groups. -/

/-- `Command` of `store.ts`, with the closures made explicit functions
on a scene state `σ`. -/
structure Command (σ : Type u) where
  undo : σ → σ
  redo : σ → σ
  dispose : Option (σ → σ) := none

/-- Execute one recorded closure invocation on the scene state. -/
def runEvent (sc : σ) : CmdEvent (Command σ) → σ
  | .dispose c => (c.dispose.getD id) sc
  | .undoCall c => c.undo sc
  | .redoCall c => c.redo sc

/-- Execute a trace of closure invocations on the scene state. -/
def runEvents (sc : σ) (evs : List (CmdEvent (Command σ))) : σ :=
  evs.foldl runEvent sc

/-- The command pushed by `handleFinDrawing`: the scene state is the
pair (children of `convexGroup`, children of `concaveParent`) as node
sets.  `undo` removes `convexMesh` and replaces `nextMeshes` by
`originalState`; `redo` adds `convexMesh` and replaces `originalState`
by `nextMeshes`; `dispose` frees geometry buffers and does not change
scene membership. -/
def finDrawingCommand (convexMesh : ℕ) (nextMeshes originalState : Finset ℕ) :
    Command (Finset ℕ × Finset ℕ) where
  undo := fun sc => (sc.1.erase convexMesh, (sc.2 \ nextMeshes) ∪ originalState)
  redo := fun sc => (insert convexMesh sc.1, (sc.2 \ originalState) ∪ nextMeshes)
  dispose := some fun sc => sc

end Hew2

namespace Hew2

/-! ## Claims about the command stack -/

/-- C1.  `pushCommand(cmd)` calls `dispose` exactly once on every
command currently in `redoStack`, in oldest-to-newest order (the trace
is exactly `redoStack.map dispose`), leaves `redoStack` empty and
`undoStack` equal to the old `undoStack` with `cmd` appended, and
invokes no command's `undo` or `redo`. -/
theorem pushCommand_spec {α : Type u} (s : StoreState α) (cmd : α) :
    (pushCommand s cmd).1.undoStack = s.undoStack ++ [cmd] ∧
    (pushCommand s cmd).1.redoStack = [] ∧
    (pushCommand s cmd).2 = s.redoStack.map CmdEvent.dispose ∧
    ∀ c : α, CmdEvent.undoCall c ∉ (pushCommand s cmd).2 ∧
      CmdEvent.redoCall c ∉ (pushCommand s cmd).2 := by
  refine ⟨rfl, rfl, rfl, fun c => ⟨?_, ?_⟩⟩ <;>
    simp [pushCommand]

/-- C2.  `undo()` on an empty `undoStack` changes nothing and calls no
closure; otherwise it calls `undo` of exactly the last `undoStack`
entry once, removes that entry from `undoStack` and appends it to
`redoStack`.  Symmetrically for `redo()` and `redoStack`. -/
theorem undo_redo_spec {α : Type u} (s : StoreState α) :
    (s.undoStack = [] → undo s = (s, [])) ∧
    (∀ (rest : List α) (c : α), s.undoStack = rest ++ [c] →
      undo s = (⟨rest, s.redoStack ++ [c]⟩, [CmdEvent.undoCall c])) ∧
    (s.redoStack = [] → redo s = (s, [])) ∧
    (∀ (rest : List α) (c : α), s.redoStack = rest ++ [c] →
      redo s = (⟨s.undoStack ++ [c], rest⟩, [CmdEvent.redoCall c])) := by
  refine ⟨fun h => ?_, fun rest c h => ?_, fun h => ?_, fun rest c h => ?_⟩ <;>
    simp [undo, redo, h, List.getLast?_concat, List.dropLast_concat]

/-- Closed instance of `undo_redo_spec` at a concrete two-command
state. -/
theorem undo_redo_spec_witness :
    undo ({ undoStack := [0], redoStack := [1] } : StoreState ℕ) =
      ({ undoStack := [], redoStack := [1, 0] }, [CmdEvent.undoCall 0]) ∧
    redo ({ undoStack := [0], redoStack := [1] } : StoreState ℕ) =
      ({ undoStack := [0, 1], redoStack := [] }, [CmdEvent.redoCall 1]) :=
  ⟨(undo_redo_spec ⟨[0], [1]⟩).2.1 [] 0 rfl,
   (undo_redo_spec ⟨[0], [1]⟩).2.2.2 [] 1 rfl⟩

/-- Closed instance of `pushCommand_spec` at a two-entry redo stack. -/
theorem pushCommand_spec_witness :
    (pushCommand ({ undoStack := [], redoStack := [0, 1] } : StoreState ℕ) 2).1.undoStack =
      [] ++ [2] ∧
    (pushCommand ({ undoStack := [], redoStack := [0, 1] } : StoreState ℕ) 2).1.redoStack =
      [] ∧
    (pushCommand ({ undoStack := [], redoStack := [0, 1] } : StoreState ℕ) 2).2 =
      [0, 1].map CmdEvent.dispose ∧
    (CmdEvent.undoCall 5 ∉
        (pushCommand ({ undoStack := [], redoStack := [0, 1] } : StoreState ℕ) 2).2 ∧
      CmdEvent.redoCall 5 ∉
        (pushCommand ({ undoStack := [], redoStack := [0, 1] } : StoreState ℕ) 2).2) :=
  ⟨(pushCommand_spec ⟨[], [0, 1]⟩ 2).1, (pushCommand_spec ⟨[], [0, 1]⟩ 2).2.1,
   (pushCommand_spec ⟨[], [0, 1]⟩ 2).2.2.1,
   (pushCommand_spec ⟨[], [0, 1]⟩ 2).2.2.2 5⟩

end Hew2

namespace Hew2

/-- The counting invariant is preserved by a single store call. -/
lemma stepOp_invariant {α : Type u} (r : RunState α) (op : StoreOp α)
    (h : r.store.undoStack.length + r.store.redoStack.length + r.released = r.pushed) :
    (stepOp r op).store.undoStack.length + (stepOp r op).store.redoStack.length +
      (stepOp r op).released = (stepOp r op).pushed := by
  cases op with
  | push c =>
    simp only [stepOp, pushCommand, List.length_append, List.length_cons,
      List.length_nil]
    omega
  | undoOp =>
    rcases hu : r.store.undoStack.getLast? with _ | c
    · simp only [stepOp, undo, hu]
      exact h
    · have hne : r.store.undoStack ≠ [] := by
        intro he
        simp [he] at hu
      have hlen : 0 < r.store.undoStack.length := List.length_pos.mpr hne
      simp only [stepOp, undo, hu, List.length_dropLast, List.length_append,
        List.length_cons, List.length_nil]
      omega
  | redoOp =>
    rcases hu : r.store.redoStack.getLast? with _ | c
    · simp only [stepOp, redo, hu]
      exact h
    · have hne : r.store.redoStack ≠ [] := by
        intro he
        simp [he] at hu
      have hlen : 0 < r.store.redoStack.length := List.length_pos.mpr hne
      simp only [stepOp, redo, hu, List.length_dropLast, List.length_append,
        List.length_cons, List.length_nil]
      omega

/-- The counting invariant holds after any run continuing from a state
that satisfies it. -/
lemma foldl_stepOp_invariant {α : Type u} (ops : List (StoreOp α)) (r : RunState α)
    (h : r.store.undoStack.length + r.store.redoStack.length + r.released = r.pushed) :
    (ops.foldl stepOp r).store.undoStack.length +
      (ops.foldl stepOp r).store.redoStack.length +
      (ops.foldl stepOp r).released = (ops.foldl stepOp r).pushed := by
  induction ops generalizing r with
  | nil => exact h
  | cons op rest ih => exact ih _ (stepOp_invariant r op h)

/-- C6.  For every finite sequence of `pushCommand`/`undo`/`redo` calls
starting from empty stacks, `undoStack.length + redoStack.length`
equals the number of commands pushed minus the number released by
pushes (stated addition-side to avoid truncated subtraction); and
`undo`/`redo` neither drop nor duplicate commands: the combined stack
contents after the transition are a permutation of those before. -/
theorem stack_counting_invariant {α : Type u} (ops : List (StoreOp α)) :
    ((runOps ops).store.undoStack.length + (runOps ops).store.redoStack.length +
      (runOps ops).released = (runOps ops).pushed) ∧
    ∀ s : StoreState α,
      ((undo s).1.undoStack ++ (undo s).1.redoStack).Perm
        (s.undoStack ++ s.redoStack) ∧
      ((redo s).1.undoStack ++ (redo s).1.redoStack).Perm
        (s.undoStack ++ s.redoStack) := by
  constructor
  · exact foldl_stepOp_invariant ops _ rfl
  · intro s
    constructor
    · rcases List.eq_nil_or_concat s.undoStack with he | ⟨rest, c, hc⟩
      · simp [undo, he]
      · rw [List.concat_eq_append] at hc
        simp only [undo, hc, List.getLast?_concat, List.dropLast_concat]
        refine (List.Perm.append_left rest List.perm_append_comm).trans ?_
        rw [List.append_assoc]
    · rcases List.eq_nil_or_concat s.redoStack with he | ⟨rest, c, hc⟩
      · simp [redo, he]
      · rw [List.concat_eq_append] at hc
        simp only [redo, hc, List.getLast?_concat, List.dropLast_concat]
        rw [List.append_assoc]
        exact List.Perm.append_left _ List.perm_append_comm

/-- C5.  `undo()` immediately followed by `redo()` on a state with
non-empty `undoStack` restores both stacks exactly; given that the last
command's `redo` reverses its `undo`, the scene state is restored as
well; and the fin-drawing command's add/remove closures do satisfy that
reversal on any scene configuration reachable after the edit
(`convexMesh` present, `nextMeshes` present, every original node still
present also in `nextMeshes`). -/
theorem undo_then_redo_restores :
    (∀ (σ : Type) (s : StoreState (Command σ)) (c : Command σ) (sc : σ),
      s.undoStack.getLast? = some c → (∀ x, c.redo (c.undo x) = x) →
      (redo (undo s).1).1 = s ∧
      runEvents sc ((undo s).2 ++ (redo (undo s).1).2) = sc) ∧
    ∀ (convexMesh : ℕ) (nextMeshes originalState cg cp : Finset ℕ),
      convexMesh ∈ cg → nextMeshes ⊆ cp → cp ∩ originalState ⊆ nextMeshes →
      (finDrawingCommand convexMesh nextMeshes originalState).redo
        ((finDrawingCommand convexMesh nextMeshes originalState).undo (cg, cp)) =
        (cg, cp) := by
  constructor
  · intro σ s c sc hlast hrev
    rcases List.eq_nil_or_concat s.undoStack with he | ⟨rest, c', hc⟩
    · rw [he] at hlast
      simp at hlast
    · rw [List.concat_eq_append] at hc
      rw [hc, List.getLast?_concat] at hlast
      obtain rfl : c' = c := Option.some.inj hlast
      simp only [undo, hc, List.getLast?_concat, List.dropLast_concat, redo,
        runEvents, List.append_assoc, List.singleton_append, List.foldl_cons,
        List.foldl_nil, runEvent]
      refine ⟨?_, hrev sc⟩
      cases s with
      | mk u r => simp_all
  · intro convexMesh nextMeshes originalState cg cp hmem hnext hco
    have h1 : ∀ x, x ∈ nextMeshes → x ∈ cp := fun x hx => hnext hx
    have h2 : ∀ x, x ∈ cp → x ∈ originalState → x ∈ nextMeshes := fun x hx ho =>
      hco (Finset.mem_inter.mpr ⟨hx, ho⟩)
    simp only [finDrawingCommand]
    refine Prod.ext ?_ ?_
    · simpa using Finset.insert_erase hmem
    · show ((cp \ nextMeshes ∪ originalState) \ originalState) ∪ nextMeshes = cp
      ext x
      have hx1 := h1 x
      have hx2 := h2 x
      simp only [Finset.mem_union, Finset.mem_sdiff]
      tauto

/-- A concrete reversible command on `ℕ` scene states, used to
instantiate `undo_then_redo_restores`. -/
def cmdSucc : Command ℕ :=
  ⟨fun n => n + 1, fun n => n - 1, none⟩

/-- A concrete one-command store state for `undo_then_redo_restores`. -/
def oneCmdState : StoreState (Command ℕ) :=
  ⟨[cmdSucc], []⟩

/-- Closed instance of `undo_then_redo_restores` at a one-command stack
and a concrete fin-drawing scene. -/
theorem undo_then_redo_restores_witness :
    ((redo (undo oneCmdState).1).1 = oneCmdState ∧
      runEvents 7 ((undo oneCmdState).2 ++ (redo (undo oneCmdState).1).2) = 7) ∧
    (finDrawingCommand 0 {1} {2}).redo
      ((finDrawingCommand 0 {1} {2}).undo ({0}, {1})) = ({0}, {1}) :=
  ⟨undo_then_redo_restores.1 ℕ oneCmdState cmdSucc 7 rfl (fun x => rfl),
   undo_then_redo_restores.2 0 {1} {2} {0} {1} (by decide) (by decide) (by decide)⟩

end Hew2

namespace Hew2

/-! ## Island segmentation (`src/app/islWorker.ts`)

`separateIslands` treats `positions` as a non-indexed triangle soup
(9 floats per face), keys each vertex by its coordinates rounded at
`precision = 10000`, and grows islands by breadth-first traversal over
faces sharing a key.  Coordinates are modelled as exact rationals; the
`faceVisited` byte array is modelled by its complement, the `Finset` of
still unvisited face indices.  `positions.length / 9` is `Nat`
division, which agrees with the JS float division exactly when the
length is a multiple of 9 (for other lengths the JS worker throws in
`new Uint8Array(numFaces)`, so the claims are stated for multiples
of 9, as in the spec's MeshBuffer invariant). -/

/-- Segment request payload: non-indexed `positions` and `normals`. -/
structure IslMsg where
  positions : List ℚ
  normals : List ℚ
  deriving DecidableEq, Repr

/-- `const numFaces = positions.length / 9`. -/
def numFaces (positions : List ℚ) : ℕ := positions.length / 9

/-- `Math.round(q)`: round half toward positive infinity. -/
def jsRound (q : ℚ) : ℤ := ⌊q + 1 / 2⌋

/-- The quantization factor `precision = 10000`. -/
def precision : ℚ := 10000

/-- The quantized key of vertex `v` (0, 1 or 2) of face `i`: the JS
code builds the string `"x,y,z"` from the three rounded coordinates;
the integer triple is an injective image of that string. -/
def faceKey (positions : List ℚ) (i v : ℕ) : ℤ × ℤ × ℤ :=
  (jsRound (positions.getD (i * 9 + v * 3) 0 * precision),
   jsRound (positions.getD (i * 9 + v * 3 + 1) 0 * precision),
   jsRound (positions.getD (i * 9 + v * 3 + 2) 0 * precision))

/-- `vertexToFaces.get(k)`: the face indices pushed for key `k`, in
construction order (outer loop over faces `i`, inner over vertices `v`;
a face is pushed once per vertex of it that has key `k`); `[]` when
the key was never pushed (`|| []` in the BFS loop). -/
def vertexToFaces (positions : List ℚ) (k : ℤ × ℤ × ℤ) : List ℕ :=
  (List.range (numFaces positions)).flatMap fun i =>
    (List.range 3).filterMap fun v =>
      if faceKey positions i v = k then some i else none

/-- The concatenation of the three neighbor lists scanned for a
dequeued face: for `v = 0, 1, 2`, `vertexToFaces.get(key) || []`. -/
def neighborList (positions : List ℚ) (f : ℕ) : List ℕ :=
  (List.range 3).flatMap fun v => vertexToFaces positions (faceKey positions f v)

/-- One neighbor check of the BFS inner loop, on the state (unvisited
set, queue): `if (!faceVisited[nFace]) { faceVisited[nFace] = 1;
queue.push(nFace); }`. -/
def enqueueNew (st : Finset ℕ × List ℕ) (n : ℕ) : Finset ℕ × List ℕ :=
  if n ∈ st.1 then (st.1.erase n, st.2 ++ [n]) else st

/-- Processing one dequeued face `f`: scan all its neighbor lists,
marking and enqueueing the still unvisited ones in order. -/
def bfsStep (positions : List ℚ) (remaining : Finset ℕ) (queue : List ℕ)
    (f : ℕ) : Finset ℕ × List ℕ :=
  (neighborList positions f).foldl enqueueNew (remaining, queue)

/-- Scanning neighbor lists never increases `2·|unvisited| + |queue|`:
each enqueue trades one unvisited face for one queue slot. -/
lemma foldl_enqueueNew_measure (l : List ℕ) (st : Finset ℕ × List ℕ) :
    (l.foldl enqueueNew st).1.card * 2 + (l.foldl enqueueNew st).2.length ≤
      st.1.card * 2 + st.2.length := by
  induction l generalizing st with
  | nil => exact le_refl _
  | cons n t ih =>
    refine le_trans (ih _) ?_
    unfold enqueueNew
    split
    · rename_i h
      have hc : 0 < st.1.card := Finset.card_pos.mpr ⟨n, h⟩
      simp only [Finset.card_erase_of_mem h, List.length_append,
        List.length_cons, List.length_nil]
      omega
    · exact le_refl _

/-- The `while (queue.length > 0)` BFS loop.  Returns the island's face
list in dequeue order (`currentIslandFaces`) together with the final
unvisited set. -/
def bfs (positions : List ℚ) (remaining : Finset ℕ) (queue : List ℕ) :
    List ℕ × Finset ℕ :=
  match queue with
  | [] => ([], remaining)
  | f :: rest =>
      let st := bfsStep positions remaining rest f
      let r := bfs positions st.1 st.2
      (f :: r.1, r.2)
termination_by remaining.card * 2 + queue.length
decreasing_by
  have h := foldl_enqueueNew_measure (neighborList positions f) (remaining, rest)
  simp only [bfsStep] at *
  simp only [List.length_cons]
  omega

/-- The outer `for (let i = 0; i < numFaces; i++)` loop: every face
index still unvisited when scanned seeds one island. -/
def islandLoop (positions : List ℚ) : List ℕ → Finset ℕ → List (List ℕ)
  | [], _ => []
  | i :: rest, remaining =>
      if i ∈ remaining then
        let r := bfs positions (remaining.erase i) [i]
        r.1 :: islandLoop positions rest r.2
      else islandLoop positions rest remaining

/-- The face-index lists of the islands, in emission order. -/
def islandFaceSets (positions : List ℚ) : List (List ℕ) :=
  islandLoop positions (List.range (numFaces positions))
    (Finset.range (numFaces positions))

/-- `arr.subarray(f * 9, f * 9 + 9)`. -/
def faceSlice (arr : List ℚ) (f : ℕ) : List ℚ :=
  (arr.drop (f * 9)).take 9

/-- One output island `{ position, normal }`. -/
structure Island where
  position : List ℚ
  normal : List ℚ
  deriving DecidableEq, Repr

/-- `separateIslands`: one island per BFS traversal; its `position` and
`normal` arrays are the concatenated 9-float slices of its faces in
traversal order. -/
def separateIslands (m : IslMsg) : List Island :=
  (islandFaceSets m.positions).map fun faces =>
    { position := faces.flatMap (faceSlice m.positions),
      normal := faces.flatMap (faceSlice m.normals) }

end Hew2

namespace Hew2

/-- Invariants of the inner neighbor scan: starting from an unvisited
set `rem` and a queue `q` of already-visited faces, the scan only
shrinks the unvisited set, keeps the queue duplicate-free and visited,
and moves faces from the unvisited set to the queue without losing
any. -/
lemma foldl_enqueueNew_spec (l : List ℕ) (rem : Finset ℕ) (q : List ℕ)
    (hnd : q.Nodup) (hdisj : ∀ x ∈ q, x ∉ rem) :
    (l.foldl enqueueNew (rem, q)).1 ⊆ rem ∧
    (l.foldl enqueueNew (rem, q)).2.Nodup ∧
    (∀ x ∈ (l.foldl enqueueNew (rem, q)).2, x ∉ (l.foldl enqueueNew (rem, q)).1) ∧
    (l.foldl enqueueNew (rem, q)).1 ∪ (l.foldl enqueueNew (rem, q)).2.toFinset =
      rem ∪ q.toFinset := by
  induction l generalizing rem q with
  | nil => exact ⟨Finset.Subset.refl _, hnd, hdisj, rfl⟩
  | cons n t ih =>
    by_cases h : n ∈ rem
    · have hnq : n ∉ q := fun hq => hdisj n hq h
      have step : enqueueNew (rem, q) n = (rem.erase n, q ++ [n]) := by
        simp [enqueueNew, h]
      rw [List.foldl_cons, step]
      have hnd' : (q ++ [n]).Nodup := by
        simp [List.nodup_append, hnd, hnq]
      have hdisj' : ∀ x ∈ q ++ [n], x ∉ rem.erase n := by
        intro x hx
        rcases List.mem_append.mp hx with hx | hx
        · exact fun hmem => hdisj x hx (Finset.mem_of_mem_erase hmem)
        · rw [List.mem_singleton] at hx
          subst hx
          exact Finset.not_mem_erase _ _
      obtain ⟨s1, s2, s3, s4⟩ := ih (rem.erase n) (q ++ [n]) hnd' hdisj'
      refine ⟨s1.trans (Finset.erase_subset _ _), s2, s3, ?_⟩
      rw [s4]
      ext x
      simp only [Finset.mem_union, List.mem_toFinset, List.mem_append,
        Finset.mem_erase, List.mem_singleton]
      constructor
      · rintro (⟨hne, hxrem⟩ | hxq | rfl)
        · exact Or.inl hxrem
        · exact Or.inr hxq
        · exact Or.inl h
      · rintro (hxrem | hxq)
        · by_cases hxn : x = n
          · exact Or.inr (Or.inr hxn)
          · exact Or.inl ⟨hxn, hxrem⟩
        · exact Or.inr (Or.inl hxq)
    · have step : enqueueNew (rem, q) n = (rem, q) := by
        simp [enqueueNew, h]
      rw [List.foldl_cons, step]
      exact ih rem q hnd hdisj

/-- `bfsStep` specializes the neighbor-scan invariants. -/
lemma bfsStep_spec (positions : List ℚ) (remaining : Finset ℕ) (queue : List ℕ)
    (f : ℕ) (hnd : queue.Nodup) (hdisj : ∀ x ∈ queue, x ∉ remaining) :
    (bfsStep positions remaining queue f).1 ⊆ remaining ∧
    (bfsStep positions remaining queue f).2.Nodup ∧
    (∀ x ∈ (bfsStep positions remaining queue f).2,
      x ∉ (bfsStep positions remaining queue f).1) ∧
    (bfsStep positions remaining queue f).1 ∪
        (bfsStep positions remaining queue f).2.toFinset =
      remaining ∪ queue.toFinset :=
  foldl_enqueueNew_spec _ _ _ hnd hdisj

/-- `bfsStep` never increases the BFS termination measure. -/
lemma bfsStep_measure (positions : List ℚ) (remaining : Finset ℕ)
    (queue : List ℕ) (f : ℕ) :
    (bfsStep positions remaining queue f).1.card * 2 +
        (bfsStep positions remaining queue f).2.length ≤
      remaining.card * 2 + queue.length :=
  foldl_enqueueNew_measure _ _

/-- Pure finite-set step identity used by the BFS invariant: if
`S1 ∪ S2 = rem ∪ restF` with `S2` disjoint from `S1`, `S1 ⊆ rem`,
`R ⊆ S1` and `restF` disjoint from `rem`, then adjoining `f` to
`S2 ∪ (S1 \ R)` equals `insert f restF ∪ (rem \ R)`. -/
lemma union_sdiff_step {S1 S2 rem restF R : Finset ℕ} {f : ℕ}
    (huni : S1 ∪ S2 = rem ∪ restF)
    (hdisj2 : ∀ x ∈ S2, x ∉ S1)
    (hsub : S1 ⊆ rem)
    (hR : R ⊆ S1)
    (hrest : ∀ x ∈ restF, x ∉ rem) :
    insert f (S2 ∪ (S1 \ R)) = insert f restF ∪ (rem \ R) := by
  ext x
  have h1 := Finset.ext_iff.mp huni x
  have h2 := fun hx => hdisj2 x hx
  have h3 : x ∈ S1 → x ∈ rem := fun hx => hsub hx
  have h4 : x ∈ R → x ∈ S1 := fun hx => hR hx
  have h5 := fun hx => hrest x hx
  simp only [Finset.mem_union, Finset.mem_sdiff, Finset.mem_insert] at h1 ⊢
  tauto

/-- Invariants of the BFS loop, by induction on the termination
measure: the produced island face list is duplicate-free, the final
unvisited set only shrinks, and the island consists exactly of the
queued faces plus the faces removed from the unvisited set. -/
lemma bfs_spec (positions : List ℚ) (N : ℕ) :
    ∀ (remaining : Finset ℕ) (queue : List ℕ),
      remaining.card * 2 + queue.length ≤ N →
      queue.Nodup → (∀ x ∈ queue, x ∉ remaining) →
      (bfs positions remaining queue).1.Nodup ∧
      (bfs positions remaining queue).2 ⊆ remaining ∧
      (bfs positions remaining queue).1.toFinset =
        queue.toFinset ∪ (remaining \ (bfs positions remaining queue).2) := by
  induction N with
  | zero =>
    intro remaining queue hm hnd hdisj
    have hq : queue = [] := List.eq_nil_of_length_eq_zero (by omega)
    subst hq
    rw [bfs]
    simp
  | succ n ih =>
    intro remaining queue hm hnd hdisj
    match queue with
    | [] =>
      rw [bfs]
      simp
    | f :: rest =>
      have hfr : f ∉ remaining := hdisj f (List.mem_cons_self f rest)
      have hfrest : f ∉ rest := (List.nodup_cons.mp hnd).1
      have hmeas := bfsStep_measure positions remaining rest f
      obtain ⟨hsub, hnd2, hdisj2, huni⟩ := bfsStep_spec positions remaining rest f
        (List.nodup_cons.mp hnd).2
        (fun x hx => hdisj x (List.mem_cons_of_mem f hx))
      rw [bfs]
      set st := bfsStep positions remaining rest f with hst
      simp only [List.length_cons] at hm
      obtain ⟨ind1, ind2, ind3⟩ := ih st.1 st.2 (by omega) hnd2 hdisj2
      refine ⟨?_, ?_, ?_⟩
      · rw [List.nodup_cons]
        refine ⟨?_, ind1⟩
        intro hf
        have hf2 : f ∈ (bfs positions st.1 st.2).1.toFinset :=
          List.mem_toFinset.mpr hf
        rw [ind3] at hf2
        rcases Finset.mem_union.mp hf2 with hf2 | hf2
        · have hf3 : f ∈ st.1 ∪ st.2.toFinset := Finset.mem_union_right _ hf2
          rw [huni] at hf3
          rcases Finset.mem_union.mp hf3 with h | h
          · exact hfr h
          · exact hfrest (List.mem_toFinset.mp h)
        · exact hfr (hsub (Finset.mem_sdiff.mp hf2).1)
      · exact fun x hx => hsub (ind2 hx)
      · rw [List.toFinset_cons, ind3, List.toFinset_cons]
        exact union_sdiff_step huni
          (fun x hx => hdisj2 x (List.mem_toFinset.mp hx)) hsub ind2
          (fun x hx => hdisj x (List.mem_cons_of_mem f (List.mem_toFinset.mp hx)))

end Hew2

namespace Hew2

/-- The outer loop visits every remaining face exactly once, provided
every remaining face is still a future seed candidate: the
concatenation of the emitted islands' face lists is duplicate-free and
covers exactly the unvisited set. -/
lemma islandLoop_spec (positions : List ℚ) (seeds : List ℕ) :
    ∀ remaining : Finset ℕ, remaining ⊆ seeds.toFinset →
      (islandLoop positions seeds remaining).flatten.Nodup ∧
      (islandLoop positions seeds remaining).flatten.toFinset = remaining := by
  induction seeds with
  | nil =>
    intro remaining hsub
    have hempty : remaining = ∅ := Finset.subset_empty.mp (by simpa using hsub)
    simp [islandLoop, hempty]
  | cons i rest ih =>
    intro remaining hsub
    by_cases hi : i ∈ remaining
    · simp only [islandLoop, if_pos hi]
      obtain ⟨b1, b2, b3⟩ := bfs_spec positions
        ((remaining.erase i).card * 2 + 1) (remaining.erase i) [i]
        (by simp) (List.nodup_singleton i)
        (by
          intro x hx
          rw [List.mem_singleton] at hx
          subst hx
          exact Finset.not_mem_erase _ _)
      have hrem' : (bfs positions (remaining.erase i) [i]).2 ⊆ rest.toFinset := by
        intro x hx
        have hx1 := b2 hx
        have hx2 : x ∈ insert i rest.toFinset := by
          have := hsub (Finset.mem_of_mem_erase hx1)
          simpa using this
        rcases Finset.mem_insert.mp hx2 with rfl | hx2
        · exact absurd hx1 (Finset.not_mem_erase _ _)
        · exact hx2
      obtain ⟨ih1, ih2⟩ := ih _ hrem'
      rw [List.flatten_cons]
      have hdisj : ∀ x ∈ (bfs positions (remaining.erase i) [i]).1,
          x ∉ (islandLoop positions rest
            (bfs positions (remaining.erase i) [i]).2).flatten := by
        intro x hx hx2
        have hx3 : x ∈ (bfs positions (remaining.erase i) [i]).2 := by
          rw [← ih2]
          exact List.mem_toFinset.mpr hx2
        have hx4 : x ∈ (bfs positions (remaining.erase i) [i]).1.toFinset :=
          List.mem_toFinset.mpr hx
        rw [b3] at hx4
        rcases Finset.mem_union.mp hx4 with hx4 | hx4
        · rw [List.toFinset_cons, List.toFinset_nil] at hx4
          simp only [insert_emptyc_eq, Finset.mem_singleton] at hx4
          subst hx4
          exact Finset.not_mem_erase _ _ (b2 hx3)
        · exact (Finset.mem_sdiff.mp hx4).2 hx3
      constructor
      · rw [List.nodup_append]
        exact ⟨b1, ih1, hdisj⟩
      · rw [List.toFinset_append, b3, ih2, List.toFinset_cons, List.toFinset_nil]
        have hsub2 : (bfs positions (remaining.erase i) [i]).2 ⊆
            remaining.erase i := b2
        rw [Finset.union_assoc, Finset.sdiff_union_of_subset hsub2]
        simp only [insert_emptyc_eq]
        rw [← Finset.insert_eq]
        exact Finset.insert_erase hi
    · simp only [islandLoop, if_neg hi]
      refine ih remaining ?_
      intro x hx
      have hx2 : x ∈ insert i rest.toFinset := by simpa using hsub hx
      rcases Finset.mem_insert.mp hx2 with rfl | hx2
      · exact absurd hx hi
      · exact hx2

end Hew2

namespace Hew2

/-- A subset of the unvisited faces with the current seed erased is
still contained in the future seed candidates. -/
lemma subset_rest_toFinset {i : ℕ} {rest : List ℕ} {remaining : Finset ℕ}
    (hsub : remaining ⊆ (i :: rest).toFinset) {S : Finset ℕ}
    (hS : S ⊆ remaining.erase i) : S ⊆ rest.toFinset := by
  intro x hx
  have hx1 := hS hx
  have hx2 : x ∈ insert i rest.toFinset := by
    simpa using hsub (Finset.mem_of_mem_erase hx1)
  rcases Finset.mem_insert.mp hx2 with rfl | hx2
  · exact absurd hx1 (Finset.not_mem_erase _ _)
  · exact hx2

/-- The BFS starting from a singleton queue emits the seed first. -/
lemma bfs_singleton_cons (positions : List ℚ) (remaining : Finset ℕ) (i : ℕ) :
    ∃ tail, (bfs positions remaining [i]).1 = i :: tail := by
  rw [bfs]
  exact ⟨_, rfl⟩

/-- Each island produced by the outer loop starts with its seed face,
and that seed is the least face index among those not contained in the
islands emitted before it, provided the pending seed list is sorted and
covers the unvisited set. -/
lemma islandLoop_seed_min (positions : List ℚ) (seeds : List ℕ) :
    ∀ remaining : Finset ℕ, remaining ⊆ seeds.toFinset →
      seeds.Sorted (· < ·) →
      ∀ k : ℕ, k < (islandLoop positions seeds remaining).length →
        ∃ seed tail,
          ((islandLoop positions seeds remaining).drop k).head? =
            some (seed :: tail) ∧
          seed ∈ remaining \
            ((islandLoop positions seeds remaining).take k).flatten.toFinset ∧
          ∀ x ∈ remaining \
            ((islandLoop positions seeds remaining).take k).flatten.toFinset,
            seed ≤ x := by
  induction seeds with
  | nil =>
    intro remaining hsub hsort k h
    simp [islandLoop] at h
  | cons i rest ih =>
    intro remaining hsub hsort k h
    by_cases hi : i ∈ remaining
    · obtain ⟨b1, b2, b3⟩ := bfs_spec positions ((remaining.erase i).card * 2 + 1)
        (remaining.erase i) [i] (by simp) (List.nodup_singleton i)
        (by
          intro x hx
          rw [List.mem_singleton] at hx
          subst hx
          exact Finset.not_mem_erase _ _)
      have hrem' : (bfs positions (remaining.erase i) [i]).2 ⊆ rest.toFinset :=
        subset_rest_toFinset hsub b2
      have hkey : remaining \ (bfs positions (remaining.erase i) [i]).1.toFinset =
          (bfs positions (remaining.erase i) [i]).2 := by
        rw [b3]
        ext x
        have h1 : x ∈ (bfs positions (remaining.erase i) [i]).2 →
            x ∈ remaining.erase i := fun hx => b2 hx
        have he : x ∈ remaining.erase i ↔ x ≠ i ∧ x ∈ remaining :=
          Finset.mem_erase
        simp only [Finset.mem_sdiff, Finset.mem_union, List.toFinset_cons,
          List.toFinset_nil, insert_emptyc_eq, Finset.mem_singleton]
        tauto
      simp only [islandLoop, if_pos hi] at h ⊢
      match k with
      | 0 =>
        obtain ⟨tail, htail⟩ := bfs_singleton_cons positions (remaining.erase i) i
        refine ⟨i, tail, ?_, ?_, ?_⟩
        · simp [htail]
        · simp [hi]
        · intro x hx
          simp only [List.take_zero, List.flatten_nil, List.toFinset_nil,
            Finset.sdiff_empty] at hx
          have hx2 : x ∈ insert i rest.toFinset := by simpa using hsub hx
          rcases Finset.mem_insert.mp hx2 with rfl | hx2
          · exact le_refl x
          · exact le_of_lt
              ((List.sorted_cons.mp hsort).1 x (List.mem_toFinset.mp hx2))
      | k' + 1 =>
        have h2 : k' < (islandLoop positions rest
            (bfs positions (remaining.erase i) [i]).2).length := by
          simpa using h
        obtain ⟨seed, tail, hget, hmem, hmin⟩ :=
          ih _ hrem' (List.sorted_cons.mp hsort).2 k' h2
        refine ⟨seed, tail, ?_, ?_, ?_⟩
        · simpa using hget
        · have hk := Finset.ext_iff.mp hkey seed
          simp only [Finset.mem_sdiff] at hk hmem
          simp only [List.take_succ_cons, List.flatten_cons,
            List.toFinset_append, Finset.mem_sdiff, Finset.mem_union]
          tauto
        · intro x hx
          refine hmin x ?_
          have hk := Finset.ext_iff.mp hkey x
          simp only [Finset.mem_sdiff] at hk
          simp only [List.take_succ_cons, List.flatten_cons,
            List.toFinset_append, Finset.mem_sdiff, Finset.mem_union] at hx
          simp only [Finset.mem_sdiff]
          tauto
    · simp only [islandLoop, if_neg hi] at h ⊢
      refine ih remaining ?_ (List.sorted_cons.mp hsort).2 k h
      intro x hx
      have hx2 : x ∈ insert i rest.toFinset := by simpa using hsub hx
      rcases Finset.mem_insert.mp hx2 with rfl | hx2
      · exact absurd hx hi
      · exact hx2

end Hew2

namespace Hew2

/-- The face list of a non-indexed buffer pair: for each face index,
the 9-float position slice paired with the 9-float normal slice. -/
def facePairs (pos norm : List ℚ) : List (List ℚ × List ℚ) :=
  (List.range (pos.length / 9)).map fun f => (faceSlice pos f, faceSlice norm f)

lemma range_toFinset_eq (n : ℕ) : (List.range n).toFinset = Finset.range n := by
  ext x
  simp [List.mem_range, Finset.mem_range]

lemma faceSlice_append_zero (p ps : List ℚ) (hp : p.length = 9) :
    faceSlice (p ++ ps) 0 = p := by
  simp only [faceSlice, Nat.zero_mul, List.drop_zero]
  rw [← hp, List.take_left]

lemma faceSlice_append_succ (p ps : List ℚ) (hp : p.length = 9) (k : ℕ) :
    faceSlice (p ++ ps) (k + 1) = faceSlice ps k := by
  simp only [faceSlice]
  have h1 : (k + 1) * 9 = p.length + k * 9 := by
    rw [hp]
    ring
  rw [h1, List.drop_append]

lemma faceSlice_length (arr : List ℚ) (f : ℕ) (h : f * 9 + 9 ≤ arr.length) :
    (faceSlice arr f).length = 9 := by
  simp only [faceSlice, List.length_take, List.length_drop]
  omega

/-- Prepending one full face to both buffers prepends one face pair. -/
lemma facePairs_cons (p n ps ns : List ℚ) (hp : p.length = 9)
    (hn : n.length = 9) :
    facePairs (p ++ ps) (n ++ ns) = (p, n) :: facePairs ps ns := by
  unfold facePairs
  have hlen : (p ++ ps).length / 9 = ps.length / 9 + 1 := by
    simp only [List.length_append, hp]
    rw [Nat.add_comm]
    exact Nat.add_div_right _ (by norm_num)
  rw [hlen, List.range_succ_eq_map, List.map_cons]
  congr 1
  · rw [faceSlice_append_zero p ps hp, faceSlice_append_zero n ns hn]
  · rw [List.map_map]
    refine List.map_congr_left fun k hk => ?_
    simp only [Function.comp_apply, Nat.succ_eq_add_one]
    rw [faceSlice_append_succ p ps hp, faceSlice_append_succ n ns hn]

/-- Re-slicing the concatenated slices of a face list recovers that
face list, provided every slice is full. -/
lemma facePairs_flatMap (pos norm : List ℚ) (faces : List ℕ)
    (hb : ∀ f ∈ faces, f * 9 + 9 ≤ pos.length ∧ f * 9 + 9 ≤ norm.length) :
    facePairs (faces.flatMap (faceSlice pos)) (faces.flatMap (faceSlice norm)) =
      faces.map fun f => (faceSlice pos f, faceSlice norm f) := by
  induction faces with
  | nil => simp [facePairs]
  | cons f fs ih =>
    have hf := hb f (List.mem_cons_self f fs)
    rw [List.flatMap_cons, List.flatMap_cons,
      facePairs_cons _ _ _ _ (faceSlice_length _ _ hf.1)
        (faceSlice_length _ _ hf.2),
      ih (fun g hg => hb g (List.mem_cons_of_mem f hg)), List.map_cons]

lemma face_lt_bound {pos : List ℚ} {f : ℕ} (h : f < numFaces pos) :
    f * 9 + 9 ≤ pos.length := by
  have h2 : f + 1 ≤ pos.length / 9 := h
  have h3 : (f + 1) * 9 ≤ pos.length / 9 * 9 := Nat.mul_le_mul_right _ h2
  have h4 : pos.length / 9 * 9 ≤ pos.length := Nat.div_mul_le_self _ _
  omega

end Hew2

namespace Hew2

/-! ## Claims about the island segmenter -/

/-- C3.  `separateIslands` on an input with an empty positions array
returns the empty island list; on any input whose positions length is a
positive multiple of 9 (at least one face) it returns a non-empty
island list. -/
theorem separateIslands_empty_and_nonempty :
    (∀ normals : List ℚ, separateIslands ⟨[], normals⟩ = []) ∧
    ∀ m : IslMsg, m.positions.length % 9 = 0 → 0 < m.positions.length →
      separateIslands m ≠ [] := by
  constructor
  · intro normals
    simp [separateIslands, islandFaceSets, numFaces, islandLoop]
  · intro m h9 hpos
    have hn : 0 < numFaces m.positions :=
      Nat.div_pos (by omega) (by norm_num)
    obtain ⟨k, hk⟩ : ∃ k, numFaces m.positions = k + 1 :=
      ⟨numFaces m.positions - 1, by omega⟩
    unfold separateIslands islandFaceSets
    rw [hk, List.range_succ_eq_map]
    simp [islandLoop, Finset.mem_range]

/-- Closed instance of `separateIslands_empty_and_nonempty`: the empty
mesh yields no islands and a one-face mesh yields at least one. -/
theorem separateIslands_empty_and_nonempty_witness :
    separateIslands ⟨[], []⟩ = [] ∧
    ((List.replicate 9 (0 : ℚ)).length % 9 = 0 ∧
      0 < (List.replicate 9 (0 : ℚ)).length ∧
      separateIslands ⟨List.replicate 9 0, List.replicate 9 0⟩ ≠ []) :=
  ⟨separateIslands_empty_and_nonempty.1 [],
   by decide, by decide,
   separateIslands_empty_and_nonempty.2 ⟨List.replicate 9 0, List.replicate 9 0⟩
     (by decide) (by decide)⟩

/-- C4.  The islands returned by `separateIslands` partition the input
faces: the concatenation of the islands' face-index lists is a
permutation of `0..numFaces-1` (each input face lands in exactly one
island), and the multiset of (position, normal) 9-float face slices of
the islands' arrays equals the input's multiset of faces, each slice
copied unchanged. -/
theorem separateIslands_partition (m : IslMsg)
    (h9 : m.positions.length % 9 = 0)
    (hn : m.normals.length = m.positions.length) :
    ((separateIslands m).flatMap fun isl =>
        facePairs isl.position isl.normal).Perm
      (facePairs m.positions m.normals) ∧
    (islandFaceSets m.positions).flatten.Perm
      (List.range (numFaces m.positions)) := by
  have hsub : Finset.range (numFaces m.positions) ⊆
      (List.range (numFaces m.positions)).toFinset := by
    rw [range_toFinset_eq]
  obtain ⟨hnd, hts⟩ := islandLoop_spec m.positions
    (List.range (numFaces m.positions)) (Finset.range (numFaces m.positions))
    hsub
  have hperm : (islandFaceSets m.positions).flatten.Perm
      (List.range (numFaces m.positions)) := by
    refine List.perm_of_nodup_nodup_toFinset_eq hnd (List.nodup_range _) ?_
    rw [range_toFinset_eq]
    exact hts
  refine ⟨?_, hperm⟩
  have hbound : ∀ f ∈ (islandFaceSets m.positions).flatten,
      f * 9 + 9 ≤ m.positions.length ∧ f * 9 + 9 ≤ m.normals.length := by
    intro f hf
    have hmem : f ∈ List.range (numFaces m.positions) := hperm.subset hf
    have hlt : f < numFaces m.positions := List.mem_range.mp hmem
    have hb := face_lt_bound hlt
    exact ⟨hb, by omega⟩
  unfold separateIslands
  rw [List.flatMap_map]
  have heq : ∀ faces ∈ islandFaceSets m.positions,
      facePairs (faces.flatMap (faceSlice m.positions))
          (faces.flatMap (faceSlice m.normals)) =
        faces.map fun f => (faceSlice m.positions f, faceSlice m.normals f) := by
    intro faces hfaces
    refine facePairs_flatMap _ _ _ fun f hf => hbound f ?_
    exact List.mem_flatten.mpr ⟨faces, hfaces, hf⟩
  have e1 : ((islandFaceSets m.positions).flatMap fun faces =>
        facePairs (faces.flatMap (faceSlice m.positions))
          (faces.flatMap (faceSlice m.normals))) =
      (islandFaceSets m.positions).flatten.map fun f =>
        (faceSlice m.positions f, faceSlice m.normals f) := by
    rw [List.flatMap_def, List.map_congr_left heq, List.map_flatten]
  rw [e1]
  exact hperm.map _

/-- Closed instance of `separateIslands_partition` at a one-face
mesh. -/
theorem separateIslands_partition_witness :
    (List.replicate 9 (0 : ℚ)).length % 9 = 0 ∧
    (List.replicate 9 (0 : ℚ)).length = (List.replicate 9 (0 : ℚ)).length ∧
    ((separateIslands ⟨List.replicate 9 0, List.replicate 9 0⟩).flatMap fun isl =>
        facePairs isl.position isl.normal).Perm
      (facePairs (List.replicate 9 0) (List.replicate 9 0)) :=
  ⟨by decide, rfl,
   (separateIslands_partition ⟨List.replicate 9 0, List.replicate 9 0⟩
     (by decide) rfl).1⟩

/-- C7.  `separateIslands` is deterministic (equal inputs give equal
outputs), and islands are emitted in seed order: island `k` starts with
its seed face, which is the least face index not contained in islands
`0..k-1`. -/
theorem separateIslands_deterministic_seed_order (pos : List ℚ)
    (_h9 : pos.length % 9 = 0) (k : ℕ)
    (hk : k < (islandFaceSets pos).length) :
    (∀ m m2 : IslMsg, m = m2 → separateIslands m = separateIslands m2) ∧
    ∃ seed tail,
      ((islandFaceSets pos).drop k).head? = some (seed :: tail) ∧
      seed ∈ Finset.range (numFaces pos) \
        ((islandFaceSets pos).take k).flatten.toFinset ∧
      ∀ x ∈ Finset.range (numFaces pos) \
        ((islandFaceSets pos).take k).flatten.toFinset, seed ≤ x := by
  refine ⟨fun m m2 h => by rw [h], ?_⟩
  have hsub : Finset.range (numFaces pos) ⊆
      (List.range (numFaces pos)).toFinset := by
    rw [range_toFinset_eq]
  exact islandLoop_seed_min pos (List.range (numFaces pos))
    (Finset.range (numFaces pos)) hsub (List.sorted_lt_range _) k hk

/-- Closed instance of `separateIslands_deterministic_seed_order` at a
one-face mesh and island index 0. -/
theorem separateIslands_deterministic_seed_order_witness :
    (List.replicate 9 (0 : ℚ)).length % 9 = 0 ∧
    0 < (islandFaceSets (List.replicate 9 0)).length ∧
    ∃ seed tail,
      ((islandFaceSets (List.replicate 9 (0 : ℚ))).drop 0).head? =
        some (seed :: tail) ∧
      seed ∈ Finset.range (numFaces (List.replicate 9 0)) \
        ((islandFaceSets (List.replicate 9 0)).take 0).flatten.toFinset ∧
      ∀ x ∈ Finset.range (numFaces (List.replicate 9 0)) \
        ((islandFaceSets (List.replicate 9 0)).take 0).flatten.toFinset,
        seed ≤ x :=
  ⟨by decide, by decide,
   (separateIslands_deterministic_seed_order (List.replicate 9 0)
     (by decide) 0 (by decide)).2⟩

end Hew2

namespace Hew2

/-! ## CSG worker (`src/app/CSGWorker.ts`) and its dispatcher

The worker body builds two brushes from the request, calls the external
`three-bvh-csg` evaluator and posts exactly one message: `{ success:
true, result }` on success (substituting an empty array for a missing
position or normal attribute of the result geometry), or, from the
`catch` block, one `{ success: false, error }` message.  The evaluation
up to the result geometry is kept abstract as a fallible function; a
thrown JS exception is its `Except.error` outcome, carrying
`err?.message` (`none` when the thrown value has no message). -/

/-- A CSG request `{ type, obj }` as posted by `postCsgWorker`. -/
structure CSGMsg where
  type : String
  positionA : List ℚ
  normalA : List ℚ
  indexA : Option (List ℕ)
  positionB : List ℚ
  normalB : List ℚ
  indexB : Option (List ℕ)
  deriving DecidableEq, Repr

/-- The geometry of `evaluator.evaluate(...)`: each attribute may be
absent (for an empty result). -/
structure ResultGeo where
  position : Option (List ℚ)
  normal : Option (List ℚ)
  index : Option (List ℕ)
  deriving DecidableEq, Repr

/-- One CSG worker response message. -/
inductive CSGResponse where
  | ok (position : List ℚ) (normal : List ℚ) (index : Option (List ℕ))
  | err (error : String)
  deriving DecidableEq, Repr

/-- The worker `onmessage` handler: the returned list is the sequence
of `postMessage` calls it performs.  On success one `{ success: true,
result }` with `positionAttr ? positionAttr.array : new
Float32Array(0)` (likewise for normal); on a thrown exception the
`catch` posts one `{ success: false, error: err?.message ?? "Unknown
error" }`. -/
def csgOnMessage (evaluate : CSGMsg → Except (Option String) ResultGeo)
    (msg : CSGMsg) : List CSGResponse :=
  match evaluate msg with
  | .ok geo => [.ok (geo.position.getD []) (geo.normal.getD []) geo.index]
  | .error e => [.err (e.getD "Unknown error")]

/-- Settlement of the promise returned by `postCsgWorker`. -/
inductive Settled where
  | resolved (position : List ℚ) (normal : List ℚ) (index : Option (List ℕ))
  | rejected (message : String)
  deriving DecidableEq, Repr

/-- `handleMessage` of `postCsgWorker`: `if (e.data.success)
resolve(e.data); else reject(new Error(e.data.error || "CSG calculation
failed"))` — the JS `||` replaces a falsy (empty) error string by the
fallback. -/
def handleMessage : CSGResponse → Settled
  | .ok p n i => .resolved p n i
  | .err e => .rejected (if e = "" then "CSG calculation failed" else e)

end Hew2

namespace Hew2

/-! ## Island worker message handler (`src/app/islWorker.ts`)

`self.onmessage` calls `separateIslands` and posts `{ success: true,
result }`; there is no try/catch, so a thrown exception would escape
the handler and nothing would be posted.  The handler is parameterized
by the segmentation outcome to make the absence of a catch branch
observable. -/

/-- One island worker response message. -/
inductive IslResponse where
  | ok (result : List Island)
  | err (error : String)
  deriving DecidableEq, Repr

/-- The island worker `onmessage` handler with the segmentation call
abstracted: a normal return is posted as `{ success: true, result }`;
an exception escapes and posts nothing. -/
def islOnMessageWith (seg : IslMsg → Except String (List Island))
    (m : IslMsg) : List IslResponse :=
  match seg m with
  | .ok r => [.ok r]
  | .error _ => []

/-- The actual handler: `separateIslands` is total, so the posted
sequence is always the single success message. -/
def islOnMessage (m : IslMsg) : List IslResponse :=
  islOnMessageWith (fun m2 => .ok (separateIslands m2)) m

end Hew2

namespace Hew2

/-! ## Claims about the workers -/

/-- C8, counterexample.  The dispatcher does not always reject with the
posted error message: a `{ success: false, error: "" }` response is
rejected with the fallback message, not with the empty string. -/
theorem csg_error_handling_counterexample :
    handleMessage (.err "") = .rejected "CSG calculation failed" ∧
    Settled.rejected "CSG calculation failed" ≠ Settled.rejected "" := by
  constructor
  · rfl
  · decide

/-- C8, amended.  If the evaluation throws, the worker posts exactly
one `{ success: false, error }` response (with the thrown message, or
"Unknown error" when absent) instead of propagating the exception, and
the dispatcher turns any `success: false` response into a rejected
promise carrying that error message, except that an empty error string
is replaced by the fallback "CSG calculation failed". -/
theorem csg_error_handling
    (evaluate : CSGMsg → Except (Option String) ResultGeo)
    (msg : CSGMsg) (e : Option String)
    (hthrow : evaluate msg = .error e) :
    csgOnMessage evaluate msg = [.err (e.getD "Unknown error")] ∧
    ∀ s : String,
      handleMessage (.err s) =
        .rejected (if s = "" then "CSG calculation failed" else s) := by
  constructor
  · simp [csgOnMessage, hthrow]
  · intro s
    rfl

/-- Closed instance of `csg_error_handling` for an evaluation throwing
an error with message "boom". -/
theorem csg_error_handling_witness :
    csgOnMessage (fun _ => Except.error (some "boom"))
        ⟨"sub", [], [], none, [], [], none⟩ =
      [CSGResponse.err ((some "boom").getD "Unknown error")] ∧
    handleMessage (.err "boom") =
      .rejected (if "boom" = "" then "CSG calculation failed" else "boom") :=
  ⟨(csg_error_handling (fun _ => Except.error (some "boom"))
      ⟨"sub", [], [], none, [], [], none⟩ (some "boom") rfl).1,
   (csg_error_handling (fun _ => Except.error (some "boom"))
      ⟨"sub", [], [], none, [], [], none⟩ (some "boom") rfl).2 "boom"⟩

/-- C9.  A zero-triangle result is a success, not an error: when the
result geometry has no position and no normal attribute, the worker
substitutes empty arrays and posts `{ success: true, result }`, never
the failure branch. -/
theorem csg_empty_result_success
    (evaluate : CSGMsg → Except (Option String) ResultGeo)
    (msg : CSGMsg) (idx : Option (List ℕ))
    (hok : evaluate msg = .ok ⟨none, none, idx⟩) :
    csgOnMessage evaluate msg = [.ok [] [] idx] ∧
    ∀ e : String, csgOnMessage evaluate msg ≠ [.err e] := by
  constructor
  · simp [csgOnMessage, hok, Option.getD]
  · intro e
    simp [csgOnMessage, hok]

/-- Closed instance of `csg_empty_result_success` for an evaluation
returning a geometry with no attributes. -/
theorem csg_empty_result_success_witness :
    csgOnMessage (fun _ => Except.ok ⟨none, none, none⟩)
        ⟨"sub", [], [], none, [], [], none⟩ = [.ok [] [] none] ∧
    csgOnMessage (fun _ => Except.ok ⟨none, none, none⟩)
        ⟨"sub", [], [], none, [], [], none⟩ ≠ [.err "empty"] :=
  ⟨(csg_empty_result_success (fun _ => Except.ok ⟨none, none, none⟩)
      ⟨"sub", [], [], none, [], [], none⟩ none rfl).1,
   (csg_empty_result_success (fun _ => Except.ok ⟨none, none, none⟩)
      ⟨"sub", [], [], none, [], [], none⟩ none rfl).2 "empty"⟩

/-- C10.  Every response the island worker posts has `success = true`:
there is no try/catch, so the failure branch of the segment response
format is never produced, and a thrown exception would post no
response at all; the actual handler always posts exactly the single
success message carrying `separateIslands` of the request. -/
theorem isl_worker_always_success :
    (∀ (seg : IslMsg → Except String (List Island)) (m : IslMsg)
      (r : IslResponse), r ∈ islOnMessageWith seg m →
        ∃ result, r = .ok result) ∧
    (∀ (seg : IslMsg → Except String (List Island)) (m : IslMsg)
      (e : String), seg m = .error e → islOnMessageWith seg m = []) ∧
    ∀ m : IslMsg, islOnMessage m = [.ok (separateIslands m)] := by
  refine ⟨?_, ?_, fun m => rfl⟩
  · intro seg m r hr
    unfold islOnMessageWith at hr
    rcases hseg : seg m with e | r2 <;> rw [hseg] at hr
    · exact absurd hr (List.not_mem_nil r)
    · exact ⟨r2, List.mem_singleton.mp hr⟩
  · intro seg m e hseg
    unfold islOnMessageWith
    rw [hseg]

/-- Closed instance of `isl_worker_always_success` at a constant
segmentation outcome and at the empty request. -/
theorem isl_worker_always_success_witness :
    (∃ result, IslResponse.ok [] = IslResponse.ok result) ∧
    islOnMessageWith (fun _ => Except.error "boom") ⟨[], []⟩ = [] ∧
    islOnMessage ⟨[], []⟩ = [.ok (separateIslands ⟨[], []⟩)] :=
  ⟨isl_worker_always_success.1 (fun _ => Except.ok []) ⟨[], []⟩
      (IslResponse.ok []) (List.mem_singleton.mpr rfl),
   isl_worker_always_success.2.1 (fun _ => Except.error "boom") ⟨[], []⟩
      "boom" rfl,
   isl_worker_always_success.2.2 ⟨[], []⟩⟩

end Hew2

namespace Hew2

/-- Closed instance of `stack_counting_invariant` at a three-call run
and a concrete two-command state. -/
theorem stack_counting_invariant_witness :
    ((runOps [StoreOp.push 0, StoreOp.push 1, StoreOp.undoOp]).store.undoStack.length +
        (runOps [StoreOp.push 0, StoreOp.push 1, StoreOp.undoOp]).store.redoStack.length +
        (runOps [StoreOp.push 0, StoreOp.push 1, StoreOp.undoOp]).released =
      (runOps [StoreOp.push 0, StoreOp.push 1, StoreOp.undoOp]).pushed) ∧
    ((undo ({ undoStack := [0], redoStack := [1] } : StoreState ℕ)).1.undoStack ++
        (undo ({ undoStack := [0], redoStack := [1] } : StoreState ℕ)).1.redoStack).Perm
      ([0] ++ [1]) ∧
    ((redo ({ undoStack := [0], redoStack := [1] } : StoreState ℕ)).1.undoStack ++
        (redo ({ undoStack := [0], redoStack := [1] } : StoreState ℕ)).1.redoStack).Perm
      ([0] ++ [1]) :=
  ⟨(stack_counting_invariant [StoreOp.push 0, StoreOp.push 1, StoreOp.undoOp]).1,
   ((stack_counting_invariant ([] : List (StoreOp ℕ))).2 ⟨[0], [1]⟩).1,
   ((stack_counting_invariant ([] : List (StoreOp ℕ))).2 ⟨[0], [1]⟩).2⟩

end Hew2
